import Mathlib

/-!
Shallow embedding of the FramerD incremental review-stream parser, excerpt
locator and diagnostic assignment policy (sources: `parsing.ts`,
`excerpt-matching.ts`, `extension.ts`, `dictionary-utils.ts`), together with
proofs settling the specification claims.

Strings are modelled as `List Char`.  JavaScript regular expressions that the
source applies to fixed literal patterns are embedded as hand-rolled
backtracking matchers that follow the engine's leftmost-first semantics for
those concrete patterns.  `toLowerCase` is modelled on the ASCII range, which
is exact for every pattern the source compares against.  `vscode` document
positions are modelled as character offsets (`positionAt` is an order
isomorphism between offsets and positions, so range intersection in position
space coincides with interval intersection in offset space).
-/

set_option maxRecDepth 100000
set_option maxHeartbeats 4000000

namespace FramerD

/-- The apostrophe character (U+0027), written by code point to keep the
source's quote list readable. -/
def apos : Char := Char.ofNat 39

/-- JavaScript whitespace class: the characters matched by `\s` and trimmed by
`String.prototype.trim`. -/
def isWs (c : Char) : Bool :=
  c.toNat = 9 ∨ c.toNat = 10 ∨ c.toNat = 11 ∨ c.toNat = 12 ∨ c.toNat = 13 ∨
  c.toNat = 32 ∨ c.toNat = 160 ∨ c.toNat = 0x1680 ∨
  (0x2000 ≤ c.toNat ∧ c.toNat ≤ 0x200a) ∨
  c.toNat = 0x2028 ∨ c.toNat = 0x2029 ∨ c.toNat = 0x202f ∨
  c.toNat = 0x205f ∨ c.toNat = 0x3000 ∨ c.toNat = 0xfeff

/-- JavaScript `\d`. -/
def isDigitC (c : Char) : Bool :=
  48 ≤ c.toNat ∧ c.toNat ≤ 57

/-- ASCII lowercasing, the fragment of `toLowerCase` relevant to the source's
comparisons (`SEVERITY` tokens, category names, field names). -/
def lowerC (c : Char) : Char :=
  if 65 ≤ c.toNat ∧ c.toNat ≤ 90 then Char.ofNat (c.toNat + 32) else c

/-- Case-insensitive character match, as a JavaScript `i`-flag regex
canonicalizes ASCII letters. -/
def ciEq (a b : Char) : Bool :=
  lowerC a = lowerC b

/-- Lowercase a string (`severityStr.toLowerCase()` etc.). -/
def lowerS (s : List Char) : List Char :=
  s.map lowerC

/-- Case-insensitive "the pattern `p` matches at the start of `s`". -/
def ciStarts (p s : List Char) : Bool :=
  match p, s with
  | [], _ => true
  | _ :: _, [] => false
  | a :: p', b :: s' => ciEq a b && ciStarts p' s'

/-- Case-sensitive literal prefix test. -/
def litStarts (p s : List Char) : Bool :=
  match p, s with
  | [], _ => true
  | _ :: _, [] => false
  | a :: p', b :: s' => a = b && litStarts p' s'

/-- Case-insensitive substring containment: `/pat/i.test(s)` for a literal
pattern. -/
def ciContains (p s : List Char) : Bool :=
  match s with
  | [] => ciStarts p []
  | _ :: s' => ciStarts p s || ciContains p s'

/-- First index at or after `start` where `pat` occurs in `s`:
`s.indexOf(pat, start)` (for a nonempty pattern). -/
def indexOfAux (pat s : List Char) (pos : Nat) : Option Nat :=
  match s with
  | [] => if litStarts pat [] then some pos else none
  | _ :: s' => if litStarts pat s then some pos else indexOfAux pat s' (pos + 1)

/-- `text.indexOf(pat)`. -/
def indexOfSub (text pat : List Char) : Option Nat :=
  indexOfAux pat text 0

/-- `text.indexOf(pat, from)`. -/
def indexOfFrom (text pat : List Char) (start : Nat) : Option Nat :=
  (indexOfAux pat (text.drop start) 0).map (· + start)

/-- Case-sensitive substring containment: `s.includes(pat)`. -/
def containsSub (s pat : List Char) : Bool :=
  (indexOfSub s pat).isSome

/-- `String.prototype.trim`. -/
def jsTrim (s : List Char) : List Char :=
  ((s.dropWhile isWs).reverse.dropWhile isWs).reverse

/-- Length of the maximal whitespace run at the head of `s` (what a greedy
`\s*` consumes before backtracking). -/
def wsRun (s : List Char) : Nat :=
  (s.takeWhile isWs).length

/-- The source's quote list, verbatim:
`const quoteChars = ['"', '"', '"', "'", "'", "'"];` -/
def quoteChars : List Char := ['"', '"', '"', apos, apos, apos]

/-- `text.startsWith(quote)` for a single-character quote. -/
def startsC (s : List Char) (q : Char) : Bool :=
  match s with
  | [] => false
  | c :: _ => c = q

/-- `text.endsWith(quote)` for a single-character quote. -/
def endsC (s : List Char) (q : Char) : Bool :=
  match s.getLast? with
  | none => false
  | some c => c = q

/-- `stripQuotes` from `parsing.ts`: trim, then remove one outer pair of
identical recognized quote characters (if the trimmed value both starts and
ends with that same character and is longer than one character), re-trimming
the inside; otherwise return the trimmed value unchanged. -/
def stripQuotes (text : List Char) : List Char :=
  let t := jsTrim text
  match quoteChars.find? (fun q => startsC t q && endsC t q && decide (1 < t.length)) with
  | some _ => jsTrim ((t.drop 1).dropLast)
  | none => t

/-! ### Field extraction

`extractField` applies `new RegExp(fieldName + ":\\s*(.+?)\\s*" + stop, "is")`
where `stop` is `(?=stopAt|$)` or `$`.  The embedding follows the engine's
backtracking order for this pattern shape: the leading `\s*` (A) is greedy,
the lazy group `(.+?)` (B) grows from one character, the trailing `\s*` (C) is
greedy, and the lookahead must hold after C. -/

/-- The lookahead `(?=stopAt|$)` (with `stopAt` present) or `$` (absent);
`$` without the `m` flag matches only at end of input. -/
def lookOk (stop : Option (List Char)) (s : List Char) : Bool :=
  match stop with
  | some st => ciStarts st s || decide (s = [])
  | none => decide (s = [])

/-- Inner loop: the trailing greedy `\s*` tries `c` whitespace characters,
backing off one at a time, until the lookahead holds. -/
def findC (stop : Option (List Char)) (s : List Char) : Nat → Option Nat
  | 0 => if lookOk stop s then some 0 else none
  | c + 1 =>
    if lookOk stop (s.drop (c + 1)) then some (c + 1) else findC stop s c

/-- Middle loop: the lazy group `(.+?)` grows one character at a time; `acc`
is the group consumed so far, `s` the text after it. -/
def findBGo (stop : Option (List Char)) (acc : List Char) : List Char → Option (List Char)
  | [] => none
  | c :: rest =>
    match findC stop rest (wsRun rest) with
    | some _ => some (acc ++ [c])
    | none => findBGo stop (acc ++ [c]) rest

/-- Outer loop: the leading greedy `\s*` tries `a` whitespace characters,
backing off one at a time. -/
def findA (stop : Option (List Char)) (s : List Char) : Nat → Option (List Char)
  | 0 => findBGo stop [] s
  | a + 1 =>
    match findBGo stop [] (s.drop (a + 1)) with
    | some b => some b
    | none => findA stop s a

/-- One match attempt with the field literal already consumed; `rest` is the
text following `fieldName:`. -/
def attemptAt (stop : Option (List Char)) (rest : List Char) : Option (List Char) :=
  findA stop rest (wsRun rest)

/-- Scan for the leftmost successful match of the field pattern and return the
captured group; on a failed attempt the engine advances one character. -/
def fieldSearch (stop : Option (List Char)) (fieldc : List Char) : List Char → Option (List Char)
  | [] => none
  | c :: rest =>
    if ciStarts fieldc (c :: rest) then
      match attemptAt stop ((c :: rest).drop fieldc.length) with
      | some b => some b
      | none => fieldSearch stop fieldc rest
    else fieldSearch stop fieldc rest

/-- `extractField` from `parsing.ts`: the captured group of
`fieldName:\s*(.+?)\s*(?=stopAt|$)` (flags `is`), quote-stripped; `null` when
the pattern does not match. -/
def extractField (block fieldName : List Char) (stopAt : Option (List Char)) :
    Option (List Char) :=
  (fieldSearch stopAt (fieldName ++ [':']) block).map stripQuotes

/-! ### Completeness detection -/

/-- Captured group of one attempt of `/FIX:\s*(.+?)$/is` given the text after
`FIX:`: the greedy `\s*` backs off just enough to leave the lazy group (which
must reach the string end) nonempty. -/
def fixValGroup (rest : List Char) : Option (List Char) :=
  if rest = [] then none
  else some (rest.drop (min (wsRun rest) (rest.length - 1)))

/-- Leftmost match of `/FIX:\s*(.+?)$/is` over a block, returning the captured
group. -/
def fixSearch : List Char → Option (List Char)
  | [] => none
  | c :: rest =>
    if ciStarts "FIX:".data (c :: rest) then
      match fixValGroup ((c :: rest).drop 4) with
      | some g => some g
      | none => fixSearch rest
    else fixSearch rest

/-- The quote loop of `isBlockComplete` on the trimmed FIX value: at the
first recognized quote character the value starts with, demand that it ends
with that same character at length over one; with no quote at the start,
demand some content. -/
def fixQuoteRule (fixValue : List Char) : Bool :=
  match quoteChars.find? (fun q => startsC fixValue q) with
  | some q => endsC fixValue q && decide (1 < fixValue.length)
  | none => decide (0 < fixValue.length)

/-- `isBlockComplete` from `parsing.ts`: all five required field names occur
(case-insensitively), and the trimmed raw FIX value passes the quote rule. -/
def isBlockComplete (block : List Char) : Bool :=
  if ciContains "EXCERPT:".data block && ciContains "CATEGORY:".data block &&
      ciContains "SEVERITY:".data block && ciContains "PROBLEM:".data block &&
      ciContains "FIX:".data block then
    match fixSearch block with
    | none => false
    | some g => fixQuoteRule (jsTrim g)
  else false

/-! ### Record assembly -/

/-- The three recognized severities. -/
inductive Sev where
  | high
  | moderate
  | low
deriving DecidableEq, Repr

/-- `ParsedSuggestion` from `parsing.ts`. -/
structure ParsedSuggestion where
  comment : List Char
  target_excerpt : List Char
  category : List Char
  severity : Sev
  explanation : List Char
  rewrite : List Char
deriving DecidableEq, Repr

/-- JavaScript falsiness of a `string | null`: `null` or the empty string. -/
def falsyO (o : Option (List Char)) : Bool :=
  match o with
  | none => true
  | some v => v = []

/-- Severity token recognition after lowercasing. -/
def sevOfString (s : List Char) : Option Sev :=
  if s = "high".data then some Sev.high
  else if s = "moderate".data then some Sev.moderate
  else if s = "low".data then some Sev.low
  else none

/-- The `fix.replace` step of `parseIssueBlock`, whose pattern is `---\s*$`:
delete the leftmost occurrence of `---` followed by only whitespace up to the
end, if any. -/
def dropTrailingMarker : List Char → List Char
  | [] => []
  | c :: rest =>
    if litStarts "---".data (c :: rest) && ((c :: rest).drop 3).all isWs then []
    else c :: dropTrailingMarker rest

/-- `const cleanFix = fix ? fix.replace(pattern, '').trim() : ''` with the
trailing-marker pattern above. -/
def cleanFix (fix : Option (List Char)) : List Char :=
  match fix with
  | none => []
  | some f => if f = [] then [] else jsTrim (dropTrailingMarker f)

/-- `parseIssueBlock` from `parsing.ts` (logging elided; nothing in the body
can throw). -/
def parseIssueBlock (block : List Char) : Option ParsedSuggestion :=
  let excerpt := extractField block "EXCERPT".data (some "CATEGORY:".data)
  let category := extractField block "CATEGORY".data (some "SEVERITY:".data)
  let severityStr := extractField block "SEVERITY".data (some "PROBLEM:".data)
  let problem := extractField block "PROBLEM".data (some "FIX:".data)
  let fix := extractField block "FIX".data none
  if falsyO excerpt || falsyO category || falsyO severityStr || falsyO problem then
    none
  else
    match sevOfString (lowerS (severityStr.getD [])) with
    | none => none
    | some sev =>
      some ⟨problem.getD [], excerpt.getD [], category.getD [], sev,
            problem.getD [], cleanFix fix⟩

/-! ### Block segmentation

`matchAll` of the issue pattern `---\s*\nISSUE\s+(\d+)\s*\n(.*?)` followed by
the lookahead `(?=---\s*\n|$)`, flags `gis`.  A greedy `\s*` followed by `\n`
consumes a whitespace run up to and including its last newline; the lazy body
stops at the first position where a further record marker (or the end of
input) is ahead. -/

/-- Index of the last `'\n'` in a list (used on a maximal whitespace run). -/
def lastNl : List Char → Option Nat
  | [] => none
  | c :: rest =>
    match lastNl rest with
    | some k => some (k + 1)
    | none => if c = '\n' then some 0 else none

/-- Does `---\s*\n` match at the start of `t` (the lookahead's first
alternative)? -/
def markerAhead (t : List Char) : Bool :=
  litStarts "---".data t && (lastNl ((t.drop 3).takeWhile isWs)).isSome

/-- The block-terminating lookahead `(?=---\s*\n|$)`. -/
def blockEnd (t : List Char) : Bool :=
  t = [] || markerAhead t

/-- Offset of the first position in `t` where the lookahead holds (the lazy
body's extent; exists because the end of input always qualifies). -/
def findStop : List Char → Nat
  | [] => 0
  | c :: rest => if blockEnd (c :: rest) then 0 else 1 + findStop rest

/-- Consume `---\s*\n`: the literal marker, then a whitespace run up to and
including its last newline.  Returns the consumed length. -/
def eatMarker (s : List Char) : Option Nat :=
  if litStarts "---".data s then
    (lastNl ((s.drop 3).takeWhile isWs)).map (fun k => 3 + (k + 1))
  else none

/-- Consume `ISSUE` case-insensitively. -/
def eatIssue (s : List Char) : Option Nat :=
  if ciStarts "ISSUE".data s then some 5 else none

/-- Consume `\s+` (at least one whitespace character, greedily). -/
def eatWs1 (s : List Char) : Option Nat :=
  if wsRun s = 0 then none else some (wsRun s)

/-- Consume `(\d+)` (at least one digit, greedily), returning the capture. -/
def eatDigits (s : List Char) : Option (List Char) :=
  let d := s.takeWhile isDigitC
  if d = [] then none else some d

/-- Consume `\s*\n` (a whitespace run up to and including its last
newline). -/
def eatWsNl (s : List Char) : Option Nat :=
  (lastNl (s.takeWhile isWs)).map (fun k => k + 1)

/-- One match attempt of the issue pattern at the start of `s`; returns the
total matched length, the captured ordinal digits and the captured block
body. -/
def tryBlockAt (s : List Char) : Option (Nat × List Char × List Char) := do
  let n1 ← eatMarker s
  let n2 ← eatIssue (s.drop n1)
  let n3 ← eatWs1 ((s.drop n1).drop n2)
  let d ← eatDigits (((s.drop n1).drop n2).drop n3)
  let n5 ← eatWsNl ((((s.drop n1).drop n2).drop n3).drop d.length)
  let r6 := ((((s.drop n1).drop n2).drop n3).drop d.length).drop n5
  let q := findStop r6
  some (n1 + n2 + n3 + d.length + n5 + q, d, r6.take q)

/-- One regex match as `matchAll` reports it: `mstart` is `match.index`,
`mstop` is `match.index + match[0].length`, `digits` is capture 1 and `block`
capture 2. -/
structure RawMatch where
  mstart : Nat
  mstop : Nat
  digits : List Char
  block : List Char
deriving DecidableEq, Repr

theorem findStop_le (t : List Char) : findStop t ≤ t.length := by
  induction t with
  | nil => simp [findStop]
  | cons c rest ih =>
    simp only [findStop]
    split
    · omega
    · simpa [Nat.add_comm] using Nat.add_le_add_left ih 1

theorem lastNl_lt {w : List Char} {k : Nat} (h : lastNl w = some k) : k < w.length := by
  induction w generalizing k with
  | nil => simp [lastNl] at h
  | cons c rest ih =>
    rw [lastNl] at h
    cases hr : lastNl rest with
    | some k' =>
      rw [hr] at h
      have hk : k = k' + 1 := by
        have := h
        simp at this
        omega
      have := ih hr
      simp
      omega
    | none =>
      rw [hr] at h
      by_cases hc : c = '\n'
      · simp only [hc, if_pos rfl] at h
        have hk : k = 0 := by
          have := h
          simp at this
          omega
        simp [hk]
      · simp [hc] at h

theorem litStarts_length {p s : List Char} (h : litStarts p s = true) :
    p.length ≤ s.length := by
  induction p generalizing s with
  | nil => simp
  | cons a p' ih =>
    cases s with
    | nil => simp [litStarts] at h
    | cons b s' =>
      simp only [litStarts, Bool.and_eq_true] at h
      simpa using ih h.2

theorem ciStarts_length {p s : List Char} (h : ciStarts p s = true) :
    p.length ≤ s.length := by
  induction p generalizing s with
  | nil => simp
  | cons a p' ih =>
    cases s with
    | nil => simp [ciStarts] at h
    | cons b s' =>
      simp only [ciStarts, Bool.and_eq_true] at h
      simpa using ih h.2

theorem takeWhile_length_le (p : Char → Bool) (l : List Char) :
    (l.takeWhile p).length ≤ l.length :=
  (List.takeWhile_prefix p).length_le

theorem eatMarker_bounds {s : List Char} {n : Nat} (h : eatMarker s = some n) :
    1 ≤ n ∧ n ≤ s.length := by
  unfold eatMarker at h
  split at h
  case isTrue hpre =>
    rcases hk : lastNl ((s.drop 3).takeWhile isWs) with _ | k
    all_goals rw [hk] at h
    · simp at h
    · have hk1 : k < ((s.drop 3).takeWhile isWs).length := lastNl_lt hk
      have hk2 : ((s.drop 3).takeWhile isWs).length ≤ (s.drop 3).length :=
        takeWhile_length_le _ _
      have h3 : (3 : Nat) ≤ s.length := by simpa using litStarts_length hpre
      have hL : (s.drop 3).length = s.length - 3 := by simp
      simp only [Option.map_some', Option.some.injEq] at h
      omega
  case isFalse => simp at h

theorem eatIssue_bounds {s : List Char} {n : Nat} (h : eatIssue s = some n) :
    1 ≤ n ∧ n ≤ s.length := by
  unfold eatIssue at h
  split at h
  case isTrue hpre =>
    have := ciStarts_length hpre
    simp only [Option.some.injEq] at h
    simp at this
    omega
  case isFalse => simp at h

theorem eatWs1_bounds {s : List Char} {n : Nat} (h : eatWs1 s = some n) :
    1 ≤ n ∧ n ≤ s.length := by
  unfold eatWs1 at h
  split at h
  case isTrue => simp at h
  case isFalse hne =>
    simp only [Option.some.injEq] at h
    have : wsRun s ≤ s.length := takeWhile_length_le _ _
    omega

theorem eatDigits_bounds {s d : List Char} (h : eatDigits s = some d) :
    1 ≤ d.length ∧ d.length ≤ s.length := by
  unfold eatDigits at h
  simp only [] at h
  split at h
  case isTrue => simp at h
  case isFalse hne =>
    simp only [Option.some.injEq] at h
    subst h
    have h1 : (s.takeWhile isDigitC).length ≤ s.length := takeWhile_length_le _ _
    have h2 : s.takeWhile isDigitC ≠ [] := hne
    have h3 : 0 < (s.takeWhile isDigitC).length := List.length_pos.mpr h2
    omega

theorem eatWsNl_bounds {s : List Char} {n : Nat} (h : eatWsNl s = some n) :
    1 ≤ n ∧ n ≤ s.length := by
  unfold eatWsNl at h
  rcases hk : lastNl (s.takeWhile isWs) with _ | k
  all_goals rw [hk] at h
  · simp at h
  · have hk1 : k < (s.takeWhile isWs).length := lastNl_lt hk
    have hk2 : (s.takeWhile isWs).length ≤ s.length := takeWhile_length_le _ _
    simp only [Option.map_some', Option.some.injEq] at h
    omega

/-- Any successful match consumes at least one and at most all characters. -/
theorem tryBlockAt_bounds {s : List Char} {len : Nat} {d blk : List Char}
    (h : tryBlockAt s = some (len, d, blk)) : 1 ≤ len ∧ len ≤ s.length := by
  unfold tryBlockAt at h
  simp only [bind, Option.bind_eq_some, Option.some.injEq, Prod.mk.injEq] at h
  obtain ⟨n1, h1, n2, h2, n3, h3, dd, h4, n5, h5, hlen, hd, hblk⟩ := h
  have b1 := eatMarker_bounds h1
  have b2 := eatIssue_bounds h2
  have b3 := eatWs1_bounds h3
  have b4 := eatDigits_bounds h4
  have b5 := eatWsNl_bounds h5
  have hq := findStop_le (((((s.drop n1).drop n2).drop n3).drop dd.length).drop n5)
  simp only [List.length_drop] at b2 b3 b4 b5 hq
  omega

/-- The scan of `matchAll`, with explicit fuel (any fuel above the remaining
length gives the scan's true result); `pos` is the absolute position of the
suffix `s` in the original buffer.  After a match the scan resumes at the
match's end; after a failed attempt it advances one character. -/
def matchAllGoF (fuel : Nat) (s : List Char) (pos : Nat) : List RawMatch :=
  match fuel with
  | 0 => []
  | fuel + 1 =>
    match s with
    | [] => []
    | c :: rest =>
      match tryBlockAt (c :: rest) with
      | some (len, d, blk) =>
        ⟨pos, pos + len, d, blk⟩ :: matchAllGoF fuel ((c :: rest).drop len) (pos + len)
      | none => matchAllGoF fuel rest (pos + 1)

/-- The scan with adequate fuel. -/
def matchAllGo (s : List Char) (pos : Nat) : List RawMatch :=
  matchAllGoF (s.length + 1) s pos

/-- `[...buffer.matchAll(issuePattern)]`. -/
def matchAll (buffer : List Char) : List RawMatch :=
  matchAllGo buffer 0

/-- The record-emitting loop of `parsePartialBuffer`: every block followed by
another marker is parsed unconditionally; the last block is parsed only if
complete; `lci` carries `lastCompleteIndex`, updated at each successful
parse. -/
def loopGo : List RawMatch → Nat → List ParsedSuggestion × Nat
  | [], lci => ([], lci)
  | [m], lci =>
    if isBlockComplete m.block then
      match parseIssueBlock m.block with
      | some s => ([s], m.mstop)
      | none => ([], lci)
    else ([], lci)
  | m :: m' :: rest, lci =>
    match parseIssueBlock m.block with
    | some s =>
      let r := loopGo (m' :: rest) m.mstop
      (s :: r.1, r.2)
    | none => loopGo (m' :: rest) lci

/-- Result of `parsePartialBuffer`. -/
structure ParseResult where
  parsed : List ParsedSuggestion
  remainder : List Char
deriving DecidableEq, Repr

/-- `parsePartialBuffer` from `parsing.ts`. -/
def parsePartialBuffer (buffer : List Char) : ParseResult :=
  let r := loopGo (matchAll buffer) 0
  ⟨r.1, buffer.drop r.2⟩

/-- `parseCompleteIssueBlocks` from `parsing.ts`: every block is parsed, but
only if complete. -/
def parseCompleteIssueBlocks (text : List Char) : List ParsedSuggestion :=
  (matchAll text).filterMap fun m =>
    if isBlockComplete m.block then parseIssueBlock m.block else none

/-! ### Streaming driver

The fragment loop of `callClaudeAPIStreaming` in `extension.ts`: append each
fragment to the carried buffer, parse, keep the remainder; at end of stream
one final parse of `buffer + '\n---'` (only when the buffer is not blank). -/

/-- Process one incoming fragment. -/
def feedStep (acc : List ParsedSuggestion × List Char) (frag : List Char) :
    List ParsedSuggestion × List Char :=
  let r := parsePartialBuffer (acc.2 ++ frag)
  (acc.1 ++ r.parsed, r.remainder)

/-- Feed a fragment list through the streaming loop, including the final
synthetic-terminator call. -/
def incrementalParse (frags : List (List Char)) : List ParsedSuggestion :=
  let r := frags.foldl feedStep ([], [])
  if jsTrim r.2 = [] then r.1
  else r.1 ++ (parsePartialBuffer (r.2 ++ "\n---".data)).parsed

/-! ### Excerpt locator (`excerpt-matching.ts`) -/

/-- `text.substring(i, i + n) === pat` for an `Int` start index known to be
nonnegative at use sites. -/
def substrEq (text : List Char) (i : Int) (n : Nat) (pat : List Char) : Bool :=
  ((text.drop i.toNat).take n) = pat

/-- The inner window scan of `findExcerptPartialMatch`: `iter` counts the
remaining offsets, starting from 101 at `offset = -50`; returns the accepted
suffix position. -/
def scanOffsets (text sfx : List Char) (matchLength : Nat) (ess : Int) :
    Nat → Int → Option Int
  | 0, _ => none
  | iter + 1, offset =>
    let si := ess + offset
    if 0 ≤ si && substrEq text si matchLength sfx then some si
    else scanOffsets text sfx matchLength ess iter (offset + 1)

/-- The outer prefix-occurrence loop (`while (true)` with
`searchStart = prefixIndex + 1`); fuel `text.length + 1` never runs out before
`indexOf` fails. -/
def searchLoop (text pfx sfx : List Char) (exLen matchLength : Nat) :
    Nat → Nat → Option (Nat × Int)
  | _, 0 => none
  | searchStart, fuel + 1 =>
    match indexOfFrom text pfx searchStart with
    | none => none
    | some pi =>
      let ess : Int := (pi : Int) + (exLen : Int) - (matchLength : Int)
      match scanOffsets text sfx matchLength ess 101 (-50) with
      | some si => some (pi, si + (matchLength : Int) - (pi : Int))
      | none => searchLoop text pfx sfx exLen matchLength (pi + 1) fuel

/-- `findExcerptPartialMatch` from `excerpt-matching.ts`: anchor on the
excerpt's first and last `min(50, ⌊len/4⌋)` characters and accept the first
prefix occurrence whose suffix reappears within ±50 characters of its expected
position. -/
def findExcerptPartialMatch (text excerpt : List Char) : Option (Nat × Int) :=
  if excerpt.length < 20 then none
  else
    let matchLength := min 50 (excerpt.length / 4)
    let pfx := excerpt.take matchLength
    let sfx := excerpt.drop (excerpt.length - matchLength)
    searchLoop text pfx sfx excerpt.length matchLength 0 (text.length + 1)

/-! ### Dictionary utilities (`dictionary-utils.ts`)

`extractMisspelledWord` tries three anchored/unanchored literal-pattern
regexes in order (the fourth pattern returns `null` whether or not it
matches, so it is behaviorally absent). -/

/-- The character class `["']`. -/
def isQuoteC (c : Char) : Bool :=
  c = '"' || c = apos

/-- One attempt of `Spelling error[^"]*"([^"]+)"` with the literal already
consumed: skip to the first double quote, then capture a nonempty run of
non-quote characters that is closed by another double quote. -/
def emw1At (r : List Char) : Option (List Char) :=
  match r.dropWhile (fun x => !(x = '"' : Bool)) with
  | [] => none
  | _ :: r2 =>
    let g := r2.takeWhile (fun x => !(x = '"' : Bool))
    if g = [] then none
    else if r2.drop g.length = [] then none
    else some g

/-- Leftmost-match scan for the first pattern of `extractMisspelledWord`. -/
def emw1 : List Char → Option (List Char)
  | [] => none
  | c :: rest =>
    if litStarts "Spelling error".data (c :: rest) then
      match emw1At ((c :: rest).drop "Spelling error".data.length) with
      | some g => some g
      | none => emw1 rest
    else emw1 rest

/-- One attempt of `Misspelling of ["']?([^"']+)["']?` with the literal
consumed: optionally consume one quote (backtracking to none if a quote run
follows), then capture a nonempty run of non-quote characters. -/
def emw2At (r : List Char) : Option (List Char) :=
  match r with
  | [] => none
  | c :: rest =>
    if isQuoteC c then
      match rest with
      | [] => none
      | c2 :: _ =>
        if isQuoteC c2 then none
        else some (rest.takeWhile (fun x => !isQuoteC x))
    else some ((c :: rest).takeWhile (fun x => !isQuoteC x))

/-- Leftmost-match scan for the second pattern. -/
def emw2 : List Char → Option (List Char)
  | [] => none
  | c :: rest =>
    if litStarts "Misspelling of ".data (c :: rest) then
      match emw2At ((c :: rest).drop "Misspelling of ".data.length) with
      | some g => some g
      | none => emw2 rest
    else emw2 rest

/-- The `match[1].replace` step of the second pattern, whose pattern is a
single trailing quote: drop a final quote character if present. -/
def dropTrailQuote (g : List Char) : List Char :=
  match g.getLast? with
  | some c => if isQuoteC c then g.dropLast else g
  | none => g

/-- The third pattern, anchored: a quoted nonempty run at the very start of
the comment followed by the literal ` should be`. -/
def emw3 (comment : List Char) : Option (List Char) :=
  match comment with
  | [] => none
  | c :: rest =>
    if isQuoteC c then
      let g := rest.takeWhile (fun x => !isQuoteC x)
      if g = [] then none
      else
        match rest.drop g.length with
        | [] => none
        | c2 :: rest2 =>
          if isQuoteC c2 && litStarts " should be".data rest2 then some g else none
    else none

/-- `extractMisspelledWord` from `dictionary-utils.ts`. -/
def extractMisspelledWord (comment : List Char) : Option (List Char) :=
  match emw1 comment with
  | some w => some w
  | none =>
    match emw2 comment with
    | some w => some (jsTrim (dropTrailQuote w))
    | none =>
      match emw3 comment with
      | some w => some w
      | none => none

/-! ### Quick-fix eligibility and the assignment policy (`extension.ts`) -/

/-- `isQuickFixable` from `parsing.ts`. -/
def isQuickFixable (s : ParsedSuggestion) : Bool :=
  if s.rewrite = [] || jsTrim s.rewrite = [] then false
  else if containsSub s.rewrite " or ".data then false
  else if 100 < s.rewrite.length then false
  else if (lowerS s.category) ∈
      ["consistency".data, "structure".data, "word_choice".data] then false
  else true

/-- A document range, as character offsets (see the header comment on the
position model). -/
structure RangeO where
  rs : Nat
  re : Nat
deriving DecidableEq, Repr

/-- `a.intersection(b) !== undefined` for `vscode.Range`: the intersection is
defined (possibly empty) exactly when the sup of the starts does not exceed
the inf of the ends. -/
def rIntersects (a b : RangeO) : Bool :=
  max a.rs b.rs ≤ min a.re b.re

/-- `vscode.DiagnosticSeverity`. -/
inductive DiagSeverity where
  | derror
  | dwarning
  | dinformation
  | dhint
deriving DecidableEq, Repr

/-- One published diagnostic: its range, display severity, and the quick-fix
identifier (`diagnostic.code`) when one was assigned. -/
structure Diag where
  range : RangeO
  severity : DiagSeverity
  code : Option Nat
deriving DecidableEq, Repr

/-- The module-level mutable state that `addSuggestionAsDiagnostic` reads and
writes: `usedRanges`, the published diagnostics, `suggestionMap`, and
`diagnosticCounter`. -/
structure PolicyState where
  usedRanges : List RangeO
  diags : List Diag
  sugMap : List (Nat × ParsedSuggestion)
  counter : Nat
deriving DecidableEq, Repr

/-- The state at the start of a review session. -/
def initState : PolicyState := ⟨[], [], [], 0⟩

/-- Display severity for a committed quick-fixable suggestion. -/
def sevMap : Sev → DiagSeverity
  | .high => .derror
  | .moderate => .dwarning
  | .low => .dinformation

/-- The dictionary gate at the top of `addSuggestionAsDiagnostic`: skip
spelling suggestions whose extracted word is in the user dictionary. -/
def dictSkip (dict : List (List Char)) (sugg : ParsedSuggestion) : Bool :=
  decide (dict ≠ []) && decide (sugg.category = "spelling".data) &&
  (match extractMisspelledWord sugg.comment with
   | some w => decide (w ≠ []) && decide (w ∈ dict)
   | none => false)

/-- Append one display-only diagnostic. -/
def pushHint (st : PolicyState) (r : RangeO) : PolicyState :=
  ⟨st.usedRanges, st.diags ++ [⟨r, .dhint, none⟩], st.sugMap, st.counter⟩

/-- `addSuggestionAsDiagnostic` from `extension.ts`, as a transition on the
policy state (the document text and dictionary are the ambient
configuration). -/
def step (text : List Char) (dict : List (List Char)) (st : PolicyState)
    (sugg : ParsedSuggestion) : PolicyState :=
  if dictSkip dict sugg then st
  else if sugg.target_excerpt = [] then pushHint st ⟨0, 0⟩
  else
    match indexOfSub text sugg.target_excerpt with
    | none => pushHint st ⟨0, 0⟩
    | some i =>
      let range : RangeO := ⟨i, i + sugg.target_excerpt.length⟩
      let overlaps := st.usedRanges.any (fun u => rIntersects u range)
      if isQuickFixable sugg && !overlaps then
        ⟨st.usedRanges ++ [range],
         st.diags ++ [⟨range, sevMap sugg.severity, some (st.counter + 1)⟩],
         st.sugMap ++ [(st.counter + 1, sugg)],
         st.counter + 1⟩
      else pushHint st range

/-- Process a record sequence in arrival order from the session-initial
state. -/
def runPolicy (text : List Char) (dict : List (List Char))
    (suggs : List ParsedSuggestion) : PolicyState :=
  suggs.foldl (step text dict) initState

/-- The ranges of the diagnostics that were committed as auto-fixable. -/
def fixableRanges (st : PolicyState) : List RangeO :=
  st.diags.filterMap fun d => if d.code.isSome then some d.range else none

/-! ### Spec-side and auxiliary definitions used by the claim statements -/

/-- The completeness rule for the (trimmed) raw FIX value, written from the
spec's words as amended: a value opening with a recognized quote character is
complete iff it closes with that same character and has length over one; an
unquoted nonempty value is complete; an empty value is incomplete. -/
def specFixComplete (v : List Char) : Bool :=
  match v with
  | [] => false
  | c :: _ =>
    if c = '"' ∨ c = apos then decide (v.getLast? = some c) && decide (1 < v.length)
    else true

/-- Field-level malformation in the sense of the failure-semantics spec: a
required non-FIX field missing (or empty, which the assembler treats alike),
or a severity token other than `high`/`moderate`/`low`. -/
def isFieldMalformed (block : List Char) : Bool :=
  falsyO (extractField block "EXCERPT".data (some "CATEGORY:".data)) ||
  falsyO (extractField block "CATEGORY".data (some "SEVERITY:".data)) ||
  falsyO (extractField block "SEVERITY".data (some "PROBLEM:".data)) ||
  falsyO (extractField block "PROBLEM".data (some "FIX:".data)) ||
  (match extractField block "SEVERITY".data (some "PROBLEM:".data) with
   | none => false
   | some v => (sevOfString (lowerS v)).isNone)

/-- Translate a match by `k` positions (relating a scan of a suffix to the
scan of the full buffer). -/
def shiftM (k : Nat) (m : RawMatch) : RawMatch :=
  ⟨m.mstart + k, m.mstop + k, m.digits, m.block⟩

/-- The assignment-policy invariant: the committed quick-fix ranges are
exactly `usedRanges`, and those are pairwise non-intersecting. -/
@[reducible]
def policyInv (st : PolicyState) : Prop :=
  fixableRanges st = st.usedRanges ∧
  List.Pairwise (fun a b => rIntersects a b = false) st.usedRanges

/-! ## Helper lemmas -/

theorem startsC_iff {t : List Char} {q : Char} : startsC t q = true ↔ t.head? = some q := by
  cases t <;> simp [startsC]

theorem endsC_eq_decide (t : List Char) (q : Char) :
    endsC t q = decide (t.getLast? = some q) := by
  unfold endsC
  cases t.getLast? <;> simp

theorem stripQuotes_eq_match (v : List Char) :
    stripQuotes v =
      match quoteChars.find? (fun q => startsC (jsTrim v) q && endsC (jsTrim v) q &&
          decide (1 < (jsTrim v).length)) with
      | some _ => jsTrim (((jsTrim v).drop 1).dropLast)
      | none => jsTrim v := rfl

theorem stripQuotes_pair {v : List Char} {q : Char} (hq : q ∈ quoteChars)
    (h1 : (jsTrim v).head? = some q) (h2 : (jsTrim v).getLast? = some q)
    (h3 : 1 < (jsTrim v).length) :
    stripQuotes v = jsTrim (((jsTrim v).drop 1).dropLast) := by
  rw [stripQuotes_eq_match]
  cases hf : quoteChars.find? (fun q => startsC (jsTrim v) q && endsC (jsTrim v) q &&
      decide (1 < (jsTrim v).length)) with
  | some q' => rfl
  | none =>
    exfalso
    have := List.find?_eq_none.mp hf q hq
    rw [startsC_iff.mpr h1, endsC_eq_decide] at this
    simp [h2, h3] at this

theorem stripQuotes_no_pair {v : List Char}
    (h : ∀ q ∈ quoteChars, (jsTrim v).head? ≠ some q) :
    stripQuotes v = jsTrim v := by
  rw [stripQuotes_eq_match]
  cases hf : quoteChars.find? (fun q => startsC (jsTrim v) q && endsC (jsTrim v) q &&
      decide (1 < (jsTrim v).length)) with
  | none => rfl
  | some q' =>
    exfalso
    have hmem := List.find?_some hf
    have hmem' := List.mem_of_find?_eq_some hf
    simp only [Bool.and_eq_true] at hmem
    exact h q' hmem' (startsC_iff.mp hmem.1.1)

/-! ## Claim theorems -/

/-- C6: on the document `She was trying not to squint too much in the light.`
and the excerpt `trying not squint too much`, `findExcerptPartialMatch`
returns a span (index 8, length 29) whose covered substring contains both
`trying not` and `squint too much`. -/
theorem c6_fuzzy_match_tolerance :
    findExcerptPartialMatch
        "She was trying not to squint too much in the light.".data
        "trying not squint too much".data = some (8, 29) ∧
    containsSub (("She was trying not to squint too much in the light.".data.drop 8).take 29)
        "trying not".data = true ∧
    containsSub (("She was trying not to squint too much in the light.".data.drop 8).take 29)
        "squint too much".data = true := by
  decide

/-- C7 counterexample: a value bracketed by a typographic left/right double
quotation pair is returned unchanged by `stripQuotes`, not stripped to its
inside as the claim states (the source's quote loop demands the same
character at both ends, and its recognized set holds only straight quotes). -/
theorem c7_counterexample :
    stripQuotes "“abc”".data = "“abc”".data ∧ "“abc”".data ≠ "abc".data := by
  decide

/-- C7 (amended): `stripQuotes` strips exactly one outer pair only when the
trimmed value is longer than one character and begins and ends with the same
recognized quote character (straight double or straight single), returning
the inside re-trimmed; a trimmed value beginning with a typographic left
quotation mark (double or single) is returned unchanged. -/
theorem c7_typographic_stripping :
    (∀ v q, q ∈ quoteChars → (jsTrim v).head? = some q →
      (jsTrim v).getLast? = some q → 1 < (jsTrim v).length →
      stripQuotes v = jsTrim (((jsTrim v).drop 1).dropLast)) ∧
    (∀ v c, c = '“' ∨ c = '‘' → (jsTrim v).head? = some c →
      stripQuotes v = jsTrim v) := by
  constructor
  · intro v q hq h1 h2 h3
    exact stripQuotes_pair hq h1 h2 h3
  · intro v c hc h1
    apply stripQuotes_no_pair
    intro q hq hcontra
    rw [h1] at hcontra
    have : c = q := by simpa using hcontra
    subst this
    rcases hc with h | h <;> subst h <;> simp [quoteChars, apos] at hq

/-- C7 witness: the amended theorem applied to the concrete values
`"ab"` (a straight-double-quoted word, stripped) and `“x”` (a typographic
pair, unchanged). -/
theorem c7_typographic_stripping_witness :
    stripQuotes "\"ab\"".data = jsTrim (((jsTrim "\"ab\"".data).drop 1).dropLast) ∧
    stripQuotes "“x”".data = jsTrim "“x”".data :=
  ⟨c7_typographic_stripping.1 "\"ab\"".data '"' (by decide) (by decide) (by decide)
      (by decide),
   c7_typographic_stripping.2 "“x”".data '“' (Or.inl rfl) (by decide)⟩

/-- C8: stripping is single-layer — the triple-double-quoted `a` loses exactly
its outermost pair, and in general a trimmed value of the shape
`q :: mid ++ [q]` for a recognized quote character `q` strips to `mid`
(re-trimmed), leaving every quote character interior to `mid` in place. -/
theorem c8_single_layer :
    stripQuotes ['"', '"', '"', 'a', '"', '"', '"'] = ['"', '"', 'a', '"', '"'] ∧
    (∀ v q mid, q ∈ quoteChars → jsTrim v = q :: (mid ++ [q]) →
      stripQuotes v = jsTrim mid) := by
  constructor
  · decide
  · intro v q mid hq hshape
    have h1 : (jsTrim v).head? = some q := by rw [hshape]; rfl
    have h2 : (jsTrim v).getLast? = some q := by
      rw [hshape, show q :: (mid ++ [q]) = (q :: mid) ++ [q] from rfl,
        List.getLast?_concat]
    have h3 : 1 < (jsTrim v).length := by rw [hshape]; simp
    have := stripQuotes_pair hq h1 h2 h3
    rw [this, hshape]
    simp

/-- C8 witness: the general part applied to the single-quoted word `'x'`
(quote characters written by code point). -/
theorem c8_single_layer_witness :
    stripQuotes [Char.ofNat 39, 'x', Char.ofNat 39] = jsTrim ['x'] :=
  c8_single_layer.2 [Char.ofNat 39, 'x', Char.ofNat 39] (Char.ofNat 39) ['x']
    (by decide) (by decide)

/-- C2 counterexample: a block carrying all five required field names whose
raw FIX value is empty after trimming is judged incomplete by
`isBlockComplete`, where the claim says such a block is complete. -/
theorem c2_counterexample :
    isBlockComplete
      "EXCERPT: a\nCATEGORY: g\nSEVERITY: high\nPROBLEM: p\nFIX: \n".data = false ∧
    ciContains "EXCERPT:".data
      "EXCERPT: a\nCATEGORY: g\nSEVERITY: high\nPROBLEM: p\nFIX: \n".data = true ∧
    ciContains "CATEGORY:".data
      "EXCERPT: a\nCATEGORY: g\nSEVERITY: high\nPROBLEM: p\nFIX: \n".data = true ∧
    ciContains "SEVERITY:".data
      "EXCERPT: a\nCATEGORY: g\nSEVERITY: high\nPROBLEM: p\nFIX: \n".data = true ∧
    ciContains "PROBLEM:".data
      "EXCERPT: a\nCATEGORY: g\nSEVERITY: high\nPROBLEM: p\nFIX: \n".data = true ∧
    ciContains "FIX:".data
      "EXCERPT: a\nCATEGORY: g\nSEVERITY: high\nPROBLEM: p\nFIX: \n".data = true ∧
    fixSearch "EXCERPT: a\nCATEGORY: g\nSEVERITY: high\nPROBLEM: p\nFIX: \n".data =
      some "\n".data ∧
    jsTrim "\n".data = [] := by
  decide

/-- C2 (amended): for a block containing all five required field names, with
`g` the raw captured FIX value, `isBlockComplete` agrees with the rule: a
FIX value opening with a recognized quote character is complete iff it closes
with that same character at length over one; an unquoted value is complete
iff nonempty after trimming — in particular an empty FIX value makes the
block incomplete. -/
theorem c2_completeness_rule (block g : List Char)
    (h1 : ciContains "EXCERPT:".data block = true)
    (h2 : ciContains "CATEGORY:".data block = true)
    (h3 : ciContains "SEVERITY:".data block = true)
    (h4 : ciContains "PROBLEM:".data block = true)
    (h5 : ciContains "FIX:".data block = true)
    (h6 : fixSearch block = some g) :
    isBlockComplete block = specFixComplete (jsTrim g) := by
  unfold isBlockComplete
  rw [if_pos (by rw [h1, h2, h3, h4, h5]; rfl), h6]
  show fixQuoteRule (jsTrim g) = specFixComplete (jsTrim g)
  generalize jsTrim g = v
  cases v with
  | nil => decide
  | cons c t =>
    by_cases hc : c = '"'
    · subst hc
      simp [fixQuoteRule, quoteChars, List.find?, startsC, specFixComplete,
        endsC_eq_decide]
    · by_cases ha : c = apos
      · subst ha
        simp [fixQuoteRule, quoteChars, List.find?, startsC, specFixComplete,
          endsC_eq_decide, show ¬(apos = '"') from by decide]
      · simp [fixQuoteRule, quoteChars, List.find?, startsC, specFixComplete, hc, ha]

/-- C2 witness: the amended rule applied to a concrete block with an unquoted
nonempty FIX value. -/
theorem c2_completeness_rule_witness :
    isBlockComplete
      "EXCERPT: a\nCATEGORY: g\nSEVERITY: high\nPROBLEM: p\nFIX: ok\n".data =
    specFixComplete (jsTrim "ok\n".data) :=
  c2_completeness_rule
    "EXCERPT: a\nCATEGORY: g\nSEVERITY: high\nPROBLEM: p\nFIX: ok\n".data
    "ok\n".data (by decide) (by decide) (by decide) (by decide) (by decide)
    (by decide)

/-- C1: chunking invariance fails on the code.  The stream below is
well-formed (its single block is complete and assembles), yet feeding it
split after `FIX: ab` emits a record with the truncated rewrite `ab`, while
the one-shot feed emits the full rewrite `ab cd`: an unquoted FIX value cut
at a fragment boundary is prematurely finalized. -/
theorem c1_chunking_violation :
    incrementalParse
        ["---\nISSUE 1\nEXCERPT: a\nCATEGORY: g\nSEVERITY: high\nPROBLEM: p\nFIX: ab".data,
         " cd\n".data] ≠
      incrementalParse
        ["---\nISSUE 1\nEXCERPT: a\nCATEGORY: g\nSEVERITY: high\nPROBLEM: p\nFIX: ab cd\n".data] ∧
    "---\nISSUE 1\nEXCERPT: a\nCATEGORY: g\nSEVERITY: high\nPROBLEM: p\nFIX: ab".data ++
        " cd\n".data =
      "---\nISSUE 1\nEXCERPT: a\nCATEGORY: g\nSEVERITY: high\nPROBLEM: p\nFIX: ab cd\n".data ∧
    (∀ m ∈ matchAll
        ("---\nISSUE 1\nEXCERPT: a\nCATEGORY: g\nSEVERITY: high\nPROBLEM: p\nFIX: ab cd\n".data ++
          "\n---".data),
      isBlockComplete m.block = true ∧ (parseIssueBlock m.block).isSome = true) := by
  refine ⟨by decide, by decide, by decide⟩

/-- C9 counterexample: the stop field name `CATEGORY:` occurring in the middle
of a line (inside the EXCERPT value) terminates extraction — the claim's
line-start anchoring does not hold, so the value comes back as `see` rather
than the full first line. -/
theorem c9_counterexample :
    extractField "EXCERPT: see CATEGORY: note\nCATEGORY: g\n".data "EXCERPT".data
        (some "CATEGORY:".data) = some "see".data ∧
    "see".data ≠ "see CATEGORY: note".data := by
  decide

theorem findC_some {stop : Option (List Char)} {s : List Char} :
    ∀ {c c' : Nat}, findC stop s c = some c' →
      c' ≤ c ∧ lookOk stop (s.drop c') = true := by
  intro c
  induction c with
  | zero =>
    intro c' h
    rw [findC] at h
    split at h
    case isTrue hl =>
      have : c' = 0 := by simpa using h.symm
      subst this
      simpa using hl
    case isFalse => simp at h
  | succ n ih =>
    intro c' h
    rw [findC] at h
    split at h
    case isTrue hl =>
      have : c' = n + 1 := by simpa using h.symm
      subst this
      exact ⟨le_refl _, hl⟩
    case isFalse =>
      obtain ⟨h1, h2⟩ := ih h
      exact ⟨Nat.le_succ_of_le h1, h2⟩

theorem findBGo_some {stop : Option (List Char)} :
    ∀ (s acc B : List Char), findBGo stop acc s = some B →
      ∃ u v c', s = u ++ v ∧ B = acc ++ u ∧ u ≠ [] ∧ c' ≤ wsRun v ∧
        lookOk stop (v.drop c') = true := by
  intro s
  induction s with
  | nil => intro acc B h; simp [findBGo] at h
  | cons c rest ih =>
    intro acc B h
    rw [findBGo] at h
    cases hf : findC stop rest (wsRun rest) with
    | some w =>
      rw [hf] at h
      obtain ⟨hw, hlook⟩ := findC_some hf
      have hB : B = acc ++ [c] := by simpa using h.symm
      exact ⟨[c], rest, w, rfl, hB, by simp, hw, hlook⟩
    | none =>
      rw [hf] at h
      obtain ⟨u, v, c', hs, hB, hu, hc', hl⟩ := ih (acc ++ [c]) B h
      refine ⟨c :: u, v, c', by rw [List.cons_append, ← hs], ?_, by simp, hc', hl⟩
      rw [hB]
      simp

theorem findA_some {stop : Option (List Char)} {s : List Char} :
    ∀ {a : Nat} {B}, findA stop s a = some B →
      ∃ a', findBGo stop [] (s.drop a') = some B := by
  intro a
  induction a with
  | zero =>
    intro B h
    rw [findA] at h
    exact ⟨0, by simpa using h⟩
  | succ n ih =>
    intro B h
    rw [findA] at h
    cases hb : findBGo stop [] (s.drop (n + 1)) with
    | some b =>
      rw [hb] at h
      have : b = B := by simpa using h
      exact ⟨n + 1, by rw [hb, this]⟩
    | none =>
      rw [hb] at h
      exact ih h

theorem fieldSearch_some {stop : Option (List Char)} {fieldc : List Char} :
    ∀ {block B : List Char}, fieldSearch stop fieldc block = some B →
      ∃ s0, s0 <:+ block ∧ ciStarts fieldc s0 = true ∧
        attemptAt stop (s0.drop fieldc.length) = some B := by
  intro block
  induction block with
  | nil => intro B h; simp [fieldSearch] at h
  | cons c rest ih =>
    intro B h
    rw [fieldSearch] at h
    split at h
    case isTrue hci =>
      cases ha : attemptAt stop ((c :: rest).drop fieldc.length) with
      | some b =>
        rw [ha] at h
        have : b = B := by simpa using h
        exact ⟨c :: rest, List.suffix_refl _, hci, by rw [ha, this]⟩
      | none =>
        rw [ha] at h
        obtain ⟨s0, hsuf, hstart, hatt⟩ := ih h
        exact ⟨s0, hsuf.trans (List.suffix_cons c rest), hstart, hatt⟩
    case isFalse =>
      obtain ⟨s0, hsuf, hstart, hatt⟩ := ih h
      exact ⟨s0, hsuf.trans (List.suffix_cons c rest), hstart, hatt⟩

theorem take_wsRun_all {v : List Char} {c' : Nat} (h : c' ≤ wsRun v) :
    (v.take c').all isWs = true := by
  obtain ⟨t, ht⟩ := List.takeWhile_prefix (l := v) (p := isWs)
  have heq : v.take c' = (v.takeWhile isWs).take c' := by
    conv_lhs => rw [← ht]
    rw [List.take_append_eq_append_take]
    have h0 : c' - (v.takeWhile isWs).length = 0 := by
      unfold wsRun at h
      omega
    rw [h0]
    simp
  rw [heq]
  apply List.all_eq_true.mpr
  intro x hx
  exact List.mem_takeWhile_imp (List.mem_of_mem_take hx)

/-- C9 (amended): whenever the field matcher captures a group `B` for a field
with a stop name, the block decomposes so that `B` is followed, after a
(possibly empty) run of whitespace, either by the end of the block or by a
full occurrence of the stop field name — anywhere, not only at a line start;
in particular a truncated fragment of the stop name never terminates the
value.  The quote-stripped group is what `extractField` returns. -/
theorem c9_stop_anchoring (block field stop B : List Char)
    (h : fieldSearch (some stop) (field ++ [':']) block = some B) :
    (∃ ws rest, ws.all isWs = true ∧ (B ++ (ws ++ rest)) <:+ block ∧
      (rest = [] ∨ ciStarts stop rest = true)) ∧
    extractField block field (some stop) = some (stripQuotes B) := by
  constructor
  · obtain ⟨s0, hsuf, hci, hatt⟩ := fieldSearch_some h
    unfold attemptAt at hatt
    obtain ⟨a', hbgo⟩ := findA_some hatt
    obtain ⟨u, v, c', hs, hB, hu, hc', hl⟩ := findBGo_some _ _ _ hbgo
    have hBu : B = u := by simpa using hB
    refine ⟨v.take c', v.drop c', take_wsRun_all hc', ?_, ?_⟩
    · rw [hBu, List.take_append_drop, ← hs]
      exact (List.drop_suffix a' _).trans ((List.drop_suffix _ s0).trans hsuf)
    · have hl' : ciStarts stop (v.drop c') = true ∨ v.drop c' = [] := by
        simpa [lookOk] using hl
      rcases hl' with h' | h'
      · exact Or.inr h'
      · exact Or.inl h'
  · unfold extractField
    rw [h]
    rfl

/-- C9 witness: the amended theorem at a block whose EXCERPT value embeds the
truncated stop-name fragment `CATEG`, which does not terminate extraction. -/
theorem c9_stop_anchoring_witness :
    (∃ ws rest, ws.all isWs = true ∧
      ("a CATEG b".data ++ (ws ++ rest)) <:+ "EXCERPT: a CATEG b\nCATEGORY: g\n".data ∧
      (rest = [] ∨ ciStarts "CATEGORY:".data rest = true)) ∧
    extractField "EXCERPT: a CATEG b\nCATEGORY: g\n".data "EXCERPT".data
      (some "CATEGORY:".data) = some (stripQuotes "a CATEG b".data) :=
  c9_stop_anchoring _ _ _ _ (by decide)

/-- C10 counterexample: a fuzzy-match result with strictly negative length —
the suffix anchor is accepted 35 characters before the prefix occurrence, so
the returned span has length −30, not a positive one. -/
theorem c10_counterexample :
    findExcerptPartialMatch "PQRSTxxxxxxxxxxxxxxxxxxxxxxxxxxxxxxABCDE".data
        "ABCDEFGHIJKLMNOPQRST".data = some (35, -30) ∧
    ¬(0 < (-30 : Int)) := by
  refine ⟨by decide, by decide⟩

theorem scanOffsets_some {text sfx : List Char} {ml : Nat} {ess si : Int} :
    ∀ (iter : Nat) (offset : Int),
      scanOffsets text sfx ml ess iter offset = some si →
      offset ≤ si - ess ∧ si - ess < offset + iter := by
  intro iter
  induction iter with
  | zero => intro offset h; simp [scanOffsets] at h
  | succ n ih =>
    intro offset h
    rw [scanOffsets] at h
    split at h
    · have : si = ess + offset := by simpa using h.symm
      omega
    · have := ih (offset + 1) h
      omega

theorem searchLoop_some {text pfx sfx : List Char} {exLen ml pi : Nat} {l : Int} :
    ∀ (fuel searchStart : Nat),
      searchLoop text pfx sfx exLen ml searchStart fuel = some (pi, l) →
      ∃ si : Int,
        scanOffsets text sfx ml ((pi : Int) + (exLen : Int) - (ml : Int)) 101 (-50) =
          some si ∧
        l = si + (ml : Int) - (pi : Int) := by
  intro fuel
  induction fuel with
  | zero => intro ss h; simp [searchLoop] at h
  | succ n ih =>
    intro ss h
    rw [searchLoop] at h
    split at h
    next => exact absurd h (by simp)
    next pi' heq =>
      simp only [] at h
      split at h
      next si hsc =>
        have hpair : pi' = pi ∧ si + (ml : Int) - (pi' : Int) = l := by simpa using h
        obtain ⟨rfl, hl⟩ := hpair
        exact ⟨si, hsc, hl.symm⟩
      next hsc => exact ih _ h

/-- C10 (amended): a non-null fuzzy-match result always has length at least
the excerpt length minus 50 (the accepted suffix position lies within the ±50
window of its expected position), hence strictly positive length whenever the
excerpt is longer than 50 characters; for shorter excerpts the length can be
non-positive, as the counterexample shows. -/
theorem c10_span_lower_bound (text excerpt : List Char) (r : Nat × Int)
    (h : findExcerptPartialMatch text excerpt = some r) :
    (excerpt.length : Int) - 50 ≤ r.2 ∧ (50 < excerpt.length → 0 < r.2) := by
  unfold findExcerptPartialMatch at h
  split at h
  · simp at h
  · obtain ⟨pi, l⟩ := r
    obtain ⟨si, hsc, hl⟩ := searchLoop_some _ _ h
    obtain ⟨hlo, hhi⟩ := scanOffsets_some _ _ hsc
    constructor
    · simp only []
      omega
    · intro h50
      simp only []
      omega

/-- C10 witness: the amended bound at a 52-character excerpt located in a
document equal to it; the returned length 52 is positive. -/
theorem c10_span_lower_bound_witness :
    ("abcdefghijklmnopqrstuvwxyzABCDEFGHIJKLMNOPQRSTUVWXYZ".data.length : Int) - 50 ≤
      (((0 : Nat), (52 : Int)) : Nat × Int).2 ∧
    (50 < "abcdefghijklmnopqrstuvwxyzABCDEFGHIJKLMNOPQRSTUVWXYZ".data.length →
      0 < (((0 : Nat), (52 : Int)) : Nat × Int).2) :=
  c10_span_lower_bound
    "abcdefghijklmnopqrstuvwxyzABCDEFGHIJKLMNOPQRSTUVWXYZ".data
    "abcdefghijklmnopqrstuvwxyzABCDEFGHIJKLMNOPQRSTUVWXYZ".data
    ((0 : Nat), (52 : Int)) (by decide)

theorem fixableRanges_pushHint (st : PolicyState) (r : RangeO) :
    fixableRanges (pushHint st r) = fixableRanges st := by
  unfold fixableRanges pushHint
  simp

theorem policyInv_init : policyInv initState :=
  ⟨rfl, List.Pairwise.nil⟩

theorem step_policyInv (text : List Char) (dict : List (List Char))
    (st : PolicyState) (sugg : ParsedSuggestion) (h : policyInv st) :
    policyInv (step text dict st sugg) := by
  obtain ⟨hfix, hpw⟩ := h
  unfold step
  split
  · exact ⟨hfix, hpw⟩
  split
  · exact ⟨by rw [fixableRanges_pushHint]; exact hfix, hpw⟩
  split
  · exact ⟨by rw [fixableRanges_pushHint]; exact hfix, hpw⟩
  next i heq =>
    simp only []
    split
    next hqf =>
      have hov : st.usedRanges.any
          (fun u => rIntersects u (⟨i, i + sugg.target_excerpt.length⟩ : RangeO)) = false := by
        rcases Bool.and_eq_true_iff.mp hqf with ⟨-, hno⟩
        simpa using hno
      constructor
      · show (st.diags ++ ([⟨⟨i, i + sugg.target_excerpt.length⟩, sevMap sugg.severity,
            some (st.counter + 1)⟩] : List Diag)).filterMap
              (fun d => if d.code.isSome then some d.range else none) =
          st.usedRanges ++ ([⟨i, i + sugg.target_excerpt.length⟩] : List RangeO)
        rw [List.filterMap_append]
        unfold fixableRanges at hfix
        rw [hfix]
        rfl
      · show List.Pairwise (fun a b => rIntersects a b = false)
          (st.usedRanges ++ ([⟨i, i + sugg.target_excerpt.length⟩] : List RangeO))
        rw [List.pairwise_append]
        refine ⟨hpw, List.pairwise_singleton _ _, ?_⟩
        intro a ha b hb
        have hb' : b = (⟨i, i + sugg.target_excerpt.length⟩ : RangeO) := by simpa using hb
        subst hb'
        have := List.any_eq_false.mp hov a ha
        simpa using this
    next => exact ⟨by rw [fixableRanges_pushHint]; exact hfix, hpw⟩

theorem foldl_policyInv (text : List Char) (dict : List (List Char)) :
    ∀ (l : List ParsedSuggestion) (st : PolicyState), policyInv st →
      policyInv (l.foldl (step text dict) st) := by
  intro l
  induction l with
  | nil => intro st h; exact h
  | cons s rest ih => intro st h; exact ih _ (step_policyInv _ _ _ _ h)

/-- C5: the overlap-downgrade invariant.  First, after processing any record
sequence from the session-initial state, the ranges of the diagnostics
committed as auto-fixable are pairwise non-intersecting.  Second, whenever a
located record's candidate range intersects some already-committed range, the
step publishes exactly one display-only diagnostic (Hint severity, no
identifier) at that range and leaves the committed-range set, the suggestion
map and the counter unchanged — with no hypothesis on `isQuickFixable`, so
this holds even for records that would otherwise qualify. -/
theorem c5_overlap_downgrade (text : List Char) (dict : List (List Char))
    (suggs : List ParsedSuggestion) :
    List.Pairwise (fun a b => rIntersects a b = false)
      (fixableRanges (runPolicy text dict suggs)) ∧
    (∀ (st : PolicyState) (sugg : ParsedSuggestion) (i : Nat),
      dictSkip dict sugg = false → sugg.target_excerpt ≠ [] →
      indexOfSub text sugg.target_excerpt = some i →
      st.usedRanges.any
        (fun u => rIntersects u (⟨i, i + sugg.target_excerpt.length⟩ : RangeO)) = true →
      step text dict st sugg = pushHint st ⟨i, i + sugg.target_excerpt.length⟩) := by
  constructor
  · have h := foldl_policyInv text dict suggs initState policyInv_init
    unfold runPolicy
    rw [h.1]
    exact h.2
  · intro st sugg i hd he hio hov
    unfold step
    rw [if_neg (by simp [hd]), if_neg he, hio]
    simp [hov]

/-- C5 witness: the per-step clause at a concrete state holding the committed
range `[0, 3]` and a located quick-fixable record at range `[0, 2]` — the
record is downgraded to a Hint despite `isQuickFixable` being true on it. -/
theorem c5_overlap_downgrade_witness :
    step "abcdef".data [] ⟨[⟨0, 3⟩], [], [], 0⟩
        ⟨"c".data, "ab".data, "grammar".data, Sev.high, "c".data, "x".data⟩ =
      pushHint ⟨[⟨0, 3⟩], [], [], 0⟩ ⟨0, 0 + "ab".data.length⟩ :=
  (c5_overlap_downgrade "abcdef".data [] []).2 ⟨[⟨0, 3⟩], [], [], 0⟩
    ⟨"c".data, "ab".data, "grammar".data, Sev.high, "c".data, "x".data⟩ 0
    (by decide) (by decide) (by decide) (by decide)

theorem malformed_parse_none {block : List Char} (h : isFieldMalformed block = true) :
    parseIssueBlock block = none := by
  unfold isFieldMalformed at h
  unfold parseIssueBlock
  simp only [Bool.or_eq_true] at h
  simp only []
  split
  · rfl
  next hcond =>
    rcases h with ((((h | h) | h) | h) | h)
    · exact absurd (by simp [h] : _ = true) hcond
    · exact absurd (by simp [h] : _ = true) hcond
    · exact absurd (by simp [h] : _ = true) hcond
    · exact absurd (by simp [h] : _ = true) hcond
    · split at h
      next => simp at h
      next v hsev =>
        rw [hsev]
        simp only [Option.getD_some]
        split
        · rfl
        next sev hs => rw [hs] at h; simp at h

theorem loopGo_parsed_filterMap :
    ∀ (ms : List RawMatch) (lci : Nat) (mlast : RawMatch),
      ms.getLast? = some mlast → isBlockComplete mlast.block = true →
      (loopGo ms lci).1 = ms.filterMap (fun m => parseIssueBlock m.block) := by
  intro ms
  induction ms with
  | nil => intro lci mlast h _; simp at h
  | cons m rest ih =>
    intro lci mlast hlast hc
    cases rest with
    | nil =>
      have hm : m = mlast := by simpa using hlast
      subst hm
      cases hp : parseIssueBlock m.block with
      | none => simp [loopGo, hc, hp]
      | some s => simp [loopGo, hc, hp]
    | cons m2 rest2 =>
      have hlast2 : (m2 :: rest2).getLast? = some mlast := by
        rw [← List.getLast?_cons_cons (a := m)]
        exact hlast
      cases hp : parseIssueBlock m.block with
      | some s =>
        simp only [loopGo, hp]
        rw [List.filterMap_cons]
        simp only [hp]
        rw [← ih m.mstop mlast hlast2 hc]
      | none =>
        simp only [loopGo, hp]
        rw [List.filterMap_cons]
        simp only [hp]
        exact ih lci mlast hlast2 hc

/-- C4: malformed blocks never halt ingestion.  If the match list of a buffer
contains a field-level malformed block (missing/empty non-FIX field or an
unrecognized severity token) followed by a nonempty run of complete blocks,
then the assembler yields no record for the malformed block, and
`parsePartialBuffer` still returns, in the same call, the records of the
preceding blocks followed by the records of all the subsequent blocks. -/
theorem c4_malformed_no_halt (buffer : List Char) (pre : List RawMatch)
    (bad : RawMatch) (good : List RawMatch)
    (hm : matchAll buffer = pre ++ bad :: good) (hg : good ≠ [])
    (hbad : isFieldMalformed bad.block = true)
    (hgood : ∀ g ∈ good, isBlockComplete g.block = true) :
    parseIssueBlock bad.block = none ∧
    (parsePartialBuffer buffer).parsed =
      pre.filterMap (fun m => parseIssueBlock m.block) ++
        good.filterMap (fun m => parseIssueBlock m.block) := by
  have hnone := malformed_parse_none hbad
  refine ⟨hnone, ?_⟩
  show (loopGo (matchAll buffer) 0).1 = _
  rw [hm]
  obtain ⟨ml, hml⟩ : ∃ ml, good.getLast? = some ml := by
    cases hgl : good.getLast? with
    | none => exact absurd (List.getLast?_eq_none_iff.mp hgl) hg
    | some x => exact ⟨x, rfl⟩
  have hlast : (pre ++ bad :: good).getLast? = some ml := by
    rw [List.getLast?_append_of_ne_nil _ (by simp : bad :: good ≠ [])]
    rw [show bad :: good = [bad] ++ good from rfl,
      List.getLast?_append_of_ne_nil _ hg]
    exact hml
  have hcomp : isBlockComplete ml.block = true :=
    hgood ml (List.mem_of_getLast?_eq_some hml)
  rw [loopGo_parsed_filterMap _ 0 ml hlast hcomp]
  rw [List.filterMap_append, List.filterMap_cons]
  simp [hnone]

/-- C4 witness: a buffer whose first block has severity token `urgent`
followed by one complete block; the call drops the first and still parses the
second. -/
theorem c4_malformed_no_halt_witness :
    parseIssueBlock
      "EXCERPT: a\nCATEGORY: g\nSEVERITY: urgent\nPROBLEM: p\nFIX: f\n".data = none ∧
    (parsePartialBuffer
      "---\nISSUE 1\nEXCERPT: a\nCATEGORY: g\nSEVERITY: urgent\nPROBLEM: p\nFIX: f\n---\nISSUE 2\nEXCERPT: b\nCATEGORY: g\nSEVERITY: low\nPROBLEM: q\nFIX: r\n".data).parsed =
      ([] : List RawMatch).filterMap (fun m => parseIssueBlock m.block) ++
        ([⟨70, 137, "2".data,
          "EXCERPT: b\nCATEGORY: g\nSEVERITY: low\nPROBLEM: q\nFIX: r\n".data⟩] :
            List RawMatch).filterMap (fun m => parseIssueBlock m.block) :=
  c4_malformed_no_halt
    "---\nISSUE 1\nEXCERPT: a\nCATEGORY: g\nSEVERITY: urgent\nPROBLEM: p\nFIX: f\n---\nISSUE 2\nEXCERPT: b\nCATEGORY: g\nSEVERITY: low\nPROBLEM: q\nFIX: r\n".data
    []
    ⟨0, 70, "1".data,
      "EXCERPT: a\nCATEGORY: g\nSEVERITY: urgent\nPROBLEM: p\nFIX: f\n".data⟩
    [⟨70, 137, "2".data,
      "EXCERPT: b\nCATEGORY: g\nSEVERITY: low\nPROBLEM: q\nFIX: r\n".data⟩]
    (by decide) (by decide) (by decide) (by decide)

theorem matchAllGoF_fuel :
    ∀ (f1 f2 : Nat) (s : List Char) (pos : Nat), s.length < f1 → s.length < f2 →
      matchAllGoF f1 s pos = matchAllGoF f2 s pos := by
  intro f1
  induction f1 with
  | zero => intro f2 s pos h1 _; omega
  | succ n ih =>
    intro f2 s pos h1 h2
    cases f2 with
    | zero => omega
    | succ m =>
      cases s with
      | nil => simp [matchAllGoF]
      | cons c rest =>
        simp only [matchAllGoF]
        split
        next len d blk ht =>
          obtain ⟨hb1, hb2⟩ := tryBlockAt_bounds ht
          simp only [List.length_cons] at h1 h2 hb2
          congr 1
          apply ih
          · simp only [List.length_drop, List.length_cons]
            omega
          · simp only [List.length_drop, List.length_cons]
            omega
        next ht =>
          simp only [List.length_cons] at h1 h2
          apply ih
          · omega
          · omega

theorem matchAllGo_unfold (c : Char) (rest : List Char) (pos : Nat) :
    matchAllGo (c :: rest) pos =
      match tryBlockAt (c :: rest) with
      | some (len, d, blk) =>
        ⟨pos, pos + len, d, blk⟩ :: matchAllGo ((c :: rest).drop len) (pos + len)
      | none => matchAllGo rest (pos + 1) := by
  show (match tryBlockAt (c :: rest) with
    | some (len, d, blk) =>
      (⟨pos, pos + len, d, blk⟩ : RawMatch) ::
        matchAllGoF (c :: rest).length ((c :: rest).drop len) (pos + len)
    | none => matchAllGoF (c :: rest).length rest (pos + 1)) = _
  split
  next len d blk ht =>
    obtain ⟨hb1, hb2⟩ := tryBlockAt_bounds ht
    congr 1
    apply matchAllGoF_fuel
    · simp only [List.length_drop, List.length_cons]
      simp only [List.length_cons] at hb2
      omega
    · simp
  next ht =>
    apply matchAllGoF_fuel
    · simp
    · simp

theorem matchAllGo_cons_some {c : Char} {rest : List Char} {len : Nat}
    {d blk : List Char} (pos : Nat)
    (h : tryBlockAt (c :: rest) = some (len, d, blk)) :
    matchAllGo (c :: rest) pos =
      ⟨pos, pos + len, d, blk⟩ :: matchAllGo ((c :: rest).drop len) (pos + len) := by
  rw [matchAllGo_unfold, h]

theorem matchAllGo_cons_none {c : Char} {rest : List Char} (pos : Nat)
    (h : tryBlockAt (c :: rest) = none) :
    matchAllGo (c :: rest) pos = matchAllGo rest (pos + 1) := by
  rw [matchAllGo_unfold, h]

theorem matchAllGoF_mstop_lb :
    ∀ (fuel : Nat) (s : List Char) (pos : Nat) (m : RawMatch),
      m ∈ matchAllGoF fuel s pos → pos + 1 ≤ m.mstop := by
  intro fuel
  induction fuel with
  | zero => intro s pos m hm; simp [matchAllGoF] at hm
  | succ n ih =>
    intro s pos m hm
    cases s with
    | nil => simp [matchAllGoF] at hm
    | cons c rest =>
      simp only [matchAllGoF] at hm
      split at hm
      next len d blk ht =>
        rcases List.mem_cons.mp hm with h | h
        · subst h
          have := (tryBlockAt_bounds ht).1
          simp only []
          omega
        · have := ih _ _ _ h
          omega
      next ht =>
        have := ih _ _ _ hm
        omega

theorem shiftM_shiftM (a b : Nat) (m : RawMatch) :
    shiftM a (shiftM b m) = shiftM (a + b) m := by
  cases m with
  | mk ms me dg bl =>
    simp only [shiftM, RawMatch.mk.injEq, and_true, true_and]
    omega

theorem matchAllGoF_shift :
    ∀ (fuel : Nat) (s : List Char) (pos : Nat),
      matchAllGoF fuel s pos = (matchAllGoF fuel s 0).map (shiftM pos) := by
  intro fuel
  induction fuel with
  | zero => intro s pos; simp [matchAllGoF]
  | succ n ih =>
    intro s pos
    cases s with
    | nil => simp [matchAllGoF]
    | cons c rest =>
      simp only [matchAllGoF]
      split
      next len d blk ht =>
        simp only [List.map_cons]
        congr 1
        · simp only [shiftM, RawMatch.mk.injEq, and_true, true_and]
          omega
        · rw [ih _ (pos + len), ih _ (0 + len), List.map_map]
          apply List.map_congr_left
          intro x _
          simp only [Function.comp_apply, shiftM_shiftM]
          congr 1
          omega
      next ht =>
        rw [ih rest (pos + 1), ih rest (0 + 1), List.map_map]
        apply List.map_congr_left
        intro x _
        simp only [Function.comp_apply, shiftM_shiftM]

theorem matchAllGoF_suffix :
    ∀ (fuel : Nat) (s : List Char) (pos : Nat) (ms1 : List RawMatch) (m : RawMatch)
      (ms2 : List RawMatch), s.length < fuel →
      matchAllGoF fuel s pos = ms1 ++ m :: ms2 →
      matchAllGo (s.drop (m.mstop - pos)) m.mstop = ms2 := by
  intro fuel
  induction fuel with
  | zero => intro s pos ms1 m ms2 h1 _; omega
  | succ n ih =>
    intro s pos ms1 m ms2 hlen h
    cases s with
    | nil =>
      simp only [matchAllGoF] at h
      simp at h
    | cons c rest =>
      simp only [matchAllGoF] at h
      split at h
      next len d blk ht =>
        obtain ⟨hb1, hb2⟩ := tryBlockAt_bounds ht
        cases ms1 with
        | nil =>
          simp only [List.nil_append] at h
          injection h with hm hms2
          subst hm
          simp only []
          rw [Nat.add_sub_cancel_left]
          unfold matchAllGo
          rw [matchAllGoF_fuel (((c :: rest).drop len).length + 1) n _ _ (by simp)
            (by
              simp only [List.length_drop, List.length_cons]
              simp only [List.length_cons] at hlen
              omega)]
          exact hms2
        | cons a t =>
          rw [List.cons_append] at h
          injection h with hhead htail
          have hmem : m ∈ matchAllGoF n ((c :: rest).drop len) (pos + len) := by
            rw [htail]
            simp
          have hlb := matchAllGoF_mstop_lb n _ _ _ hmem
          have hrec := ih _ _ _ _ _ (by
            simp only [List.length_drop, List.length_cons]
            simp only [List.length_cons] at hlen
            omega) htail
          rw [List.drop_drop] at hrec
          have harith : len + (m.mstop - (pos + len)) = m.mstop - pos := by omega
          rw [harith] at hrec
          exact hrec
      next ht =>
        have hmem : m ∈ matchAllGoF n rest (pos + 1) := by
          rw [h]
          simp
        have hlb := matchAllGoF_mstop_lb n _ _ _ hmem
        have hrec := ih _ _ _ _ _ (by
          simp only [List.length_cons] at hlen
          omega) h
        have hdrop : (c :: rest).drop (m.mstop - pos) = rest.drop (m.mstop - (pos + 1)) := by
          have hx : m.mstop - pos = (m.mstop - (pos + 1)) + 1 := by omega
          rw [hx, List.drop_succ_cons]
        rw [hdrop]
        exact hrec

theorem loopGo_nil_parsed :
    ∀ (ms : List RawMatch) (lci : Nat), (loopGo ms lci).1 = [] →
      ∀ x, loopGo ms x = ([], x) := by
  intro ms
  induction ms with
  | nil => intro lci _ x; rfl
  | cons m rest ih =>
    cases rest with
    | nil =>
      intro lci h x
      cases hc : isBlockComplete m.block with
      | false => simp [loopGo, hc]
      | true =>
        cases hp : parseIssueBlock m.block with
        | none => simp [loopGo, hc, hp]
        | some s => simp [loopGo, hc, hp] at h
    | cons m2 rest2 =>
      intro lci h x
      cases hp : parseIssueBlock m.block with
      | none =>
        simp only [loopGo, hp] at h ⊢
        exact ih lci h x
      | some s => simp [loopGo, hp] at h

theorem loopGo_parsed_lci :
    ∀ (ms : List RawMatch) (x y : Nat), (loopGo ms x).1 = (loopGo ms y).1 := by
  intro ms
  induction ms with
  | nil => intro x y; rfl
  | cons m rest ih =>
    cases rest with
    | nil =>
      intro x y
      cases hc : isBlockComplete m.block with
      | false => simp [loopGo, hc]
      | true =>
        cases hp : parseIssueBlock m.block with
        | none => simp [loopGo, hc, hp]
        | some s => simp [loopGo, hc, hp]
    | cons m2 rest2 =>
      intro x y
      cases hp : parseIssueBlock m.block with
      | none =>
        simp only [loopGo, hp]
        exact ih x y
      | some s =>
        simp only [loopGo, hp]

theorem loopGo_consumed :
    ∀ (ms : List RawMatch) (lci : Nat), (loopGo ms lci).1 ≠ [] →
      ∃ ms1 m ms2, ms = ms1 ++ m :: ms2 ∧ (loopGo ms lci).2 = m.mstop ∧
        (∀ x, loopGo ms2 x = ([], x)) := by
  intro ms
  induction ms with
  | nil => intro lci h; simp [loopGo] at h
  | cons m rest ih =>
    cases rest with
    | nil =>
      intro lci h
      cases hc : isBlockComplete m.block with
      | false => simp [loopGo, hc] at h
      | true =>
        cases hp : parseIssueBlock m.block with
        | none => simp [loopGo, hc, hp] at h
        | some s =>
          refine ⟨[], m, [], rfl, ?_, fun x => rfl⟩
          simp [loopGo, hc, hp]
    | cons m2 rest2 =>
      intro lci h
      cases hp : parseIssueBlock m.block with
      | none =>
        simp only [loopGo, hp] at h
        obtain ⟨ms1, mm, ms2, hms, hsnd, hdead⟩ := ih lci h
        refine ⟨m :: ms1, mm, ms2, by rw [hms, List.cons_append], ?_, hdead⟩
        simp only [loopGo, hp]
        exact hsnd
      | some s =>
        by_cases hr : (loopGo (m2 :: rest2) m.mstop).1 = []
        · have hdead := loopGo_nil_parsed _ _ hr
          refine ⟨[], m, m2 :: rest2, rfl, ?_, hdead⟩
          simp only [loopGo, hp]
          rw [hdead m.mstop]
        · obtain ⟨ms1, mm, ms2, hms, hsnd, hdead⟩ := ih m.mstop hr
          refine ⟨m :: ms1, mm, ms2, by rw [hms, List.cons_append], ?_, hdead⟩
          simp only [loopGo, hp]
          exact hsnd

theorem shiftM_block (k : Nat) (m : RawMatch) : (shiftM k m).block = m.block := rfl

theorem shiftM_mstop (k : Nat) (m : RawMatch) : (shiftM k m).mstop = m.mstop + k := rfl

theorem loopGo_parsed_shift :
    ∀ (ms : List RawMatch) (k x : Nat),
      (loopGo (ms.map (shiftM k)) x).1 = (loopGo ms x).1 := by
  intro ms
  induction ms with
  | nil => intro k x; rfl
  | cons m rest ih =>
    cases rest with
    | nil =>
      intro k x
      cases hc : isBlockComplete m.block with
      | false => simp [loopGo, shiftM_block, hc]
      | true =>
        cases hp : parseIssueBlock m.block with
        | none => simp [loopGo, shiftM_block, hc, hp]
        | some s => simp [loopGo, shiftM_block, hc, hp]
    | cons m2 rest2 =>
      intro k x
      simp only [List.map_cons] at ih
      cases hp : parseIssueBlock m.block with
      | none =>
        simp only [List.map_cons, loopGo, shiftM_block, hp]
        exact ih k x
      | some s =>
        simp only [List.map_cons, loopGo, shiftM_block, shiftM_mstop, hp]
        congr 1
        rw [ih k (m.mstop + k)]
        exact loopGo_parsed_lci _ _ _

/-- C3: idempotence of the incremental parser — re-running
`parsePartialBuffer` on the remainder of a previous call, with no new input,
emits no record: everything consumed by the first call lies strictly before
the remainder, and the remainder re-segments into exactly the blocks left
unconsumed, none of which produced (or now produces) a record. -/
theorem c3_idempotent (b : List Char) :
    (parsePartialBuffer (parsePartialBuffer b).remainder).parsed = [] := by
  by_cases hp : (loopGo (matchAll b) 0).1 = []
  · have h0 : loopGo (matchAll b) 0 = ([], 0) := loopGo_nil_parsed _ _ hp 0
    show (loopGo (matchAll ((parsePartialBuffer b).remainder)) 0).1 = []
    have hrem : (parsePartialBuffer b).remainder = b := by
      show b.drop (loopGo (matchAll b) 0).2 = b
      rw [h0]
      rfl
    rw [hrem]
    exact hp
  · obtain ⟨ms1, m, ms2, hms, hsnd, hdead⟩ := loopGo_consumed (matchAll b) 0 hp
    have hrem : (parsePartialBuffer b).remainder = b.drop m.mstop := by
      show b.drop (loopGo (matchAll b) 0).2 = b.drop m.mstop
      rw [hsnd]
    have hsuffix : matchAllGo (b.drop (m.mstop - 0)) m.mstop = ms2 :=
      matchAllGoF_suffix (b.length + 1) b 0 ms1 m ms2 (by simp) hms
    rw [Nat.sub_zero] at hsuffix
    have hshift : matchAllGo (b.drop m.mstop) m.mstop =
        (matchAllGo (b.drop m.mstop) 0).map (shiftM m.mstop) :=
      matchAllGoF_shift _ _ _
    show (loopGo (matchAll ((parsePartialBuffer b).remainder)) 0).1 = []
    rw [hrem]
    have hback : (loopGo (matchAll (b.drop m.mstop)) 0).1 =
        (loopGo ((matchAll (b.drop m.mstop)).map (shiftM m.mstop)) 0).1 :=
      (loopGo_parsed_shift _ _ _).symm
    rw [hback]
    show (loopGo ((matchAllGo (b.drop m.mstop) 0).map (shiftM m.mstop)) 0).1 = []
    rw [← hshift, hsuffix, hdead 0]

end FramerD
